import Mathlib

/-!
Verification of the Bloom filter in `src/main.rs` (paulpage/bloom-filter-rs).

Shallow embedding notes:
  * `BitVec` (crate `bit_vec`) is modelled as `List Bool`; `BitVec::set`
    and indexing panic out of range, so they are modelled as `Option`.
  * `usize` is modelled as `Nat`.  Rust `x % 0` panics, so the index
    computation `hash(i, item) % bit_vec_size` is `Option`-valued.
  * The seeded hash `BloomFilter::hash` (DefaultHasher over the probe
    index and the item) is an unspecified deterministic function; all
    operations are parameterised by an arbitrary `hash : Nat → α → Nat`.
  * `f64` arithmetic in the sizing functions is modelled by real
    arithmetic; the Rust `as usize` cast (truncation toward zero,
    negative/NaN clamped to 0) is modelled by `Nat.floor`.
-/

/-- The `BloomFilter<T>` struct of the source, with `bit_vec : BitVec`
as a list of booleans and the phantom type parameter kept as `α`. -/
structure BloomFilter (α : Type) where
  bit_vec : List Bool
  false_positive_prob : ℝ
  bit_vec_size : ℕ
  hash_count : ℕ

/-- One probe index: `hash(i, item) % self.bit_vec_size`.  Rust's `%` on
`usize` panics when the divisor is zero, hence the `Option`. -/
def probeIndex (sz : ℕ) (h : ℕ) : Option ℕ :=
  if sz = 0 then none else some (h % sz)

/-- `BitVec::set(i, true)`: panics when `i` is out of range. -/
def setBit (bv : List Bool) (i : ℕ) : Option (List Bool) :=
  if i < bv.length then some (bv.set i true) else none

/-- The loop body of `BloomFilter::add`, over an explicit list of probe
seeds `i` (the source iterates `0..hash_count`). -/
def addProbes (hash : ℕ → α → ℕ) (item : α) (sz : ℕ) :
    List ℕ → List Bool → Option (List Bool)
  | [], bv => some bv
  | i :: is, bv =>
    match probeIndex sz (hash i item) with
    | none => none
    | some idx =>
      match setBit bv idx with
      | none => none
      | some bv2 => addProbes hash item sz is bv2

/-- `BloomFilter::add`: set the bit `hash(i, item) % bit_vec_size` for
each `i` in `0..hash_count`. -/
def BloomFilter.add (hash : ℕ → α → ℕ) (f : BloomFilter α) (item : α) :
    Option (BloomFilter α) :=
  (addProbes hash item f.bit_vec_size (List.range f.hash_count) f.bit_vec).map
    fun bv => { f with bit_vec := bv }

/-- The loop body of `BloomFilter::contains`: return `false` as soon as a
probe finds an unset bit, `true` when all probes succeed.  Indexing
`self.bit_vec[index]` panics out of range, hence the `Option`. -/
def containsProbes (hash : ℕ → α → ℕ) (item : α) (sz : ℕ) (bv : List Bool) :
    List ℕ → Option Bool
  | [] => some true
  | i :: is =>
    match probeIndex sz (hash i item) with
    | none => none
    | some idx =>
      match bv[idx]? with
      | none => none
      | some b => if b then containsProbes hash item sz bv is else some false

/-- `BloomFilter::contains`. -/
def BloomFilter.contains (hash : ℕ → α → ℕ) (f : BloomFilter α) (item : α) :
    Option Bool :=
  containsProbes hash item f.bit_vec_size f.bit_vec (List.range f.hash_count)

/-- A sequence of `add` calls (as the population phase performs). -/
def BloomFilter.addAll (hash : ℕ → α → ℕ) (f : BloomFilter α) :
    List α → Option (BloomFilter α)
  | [] => some f
  | x :: xs =>
    match BloomFilter.add hash f x with
    | none => none
    | some f2 => BloomFilter.addAll hash f2 xs

/-- Well-formedness that `new` establishes when the computed size is
positive: the bit vector has exactly `bit_vec_size` slots and there is at
least one slot. -/
def BloomFilter.WF (f : BloomFilter α) : Prop :=
  1 ≤ f.bit_vec_size ∧ f.bit_vec.length = f.bit_vec_size

/-- `BloomFilter::get_size`, the body
`(n as f64 * p.ln() / ((2f64).ln() * (2f64).ln()) * (-1f64)) as usize`
with `f64` modelled by `ℝ` and the saturating truncation by `Nat.floor`. -/
noncomputable def BloomFilter.get_size (n : ℕ) (p : ℝ) : ℕ :=
  ⌊(n : ℝ) * Real.log p / (Real.log 2 * Real.log 2) * (-1 : ℝ)⌋₊

/-- `BloomFilter::get_hash_count`, the body
`max((m as f64 / n as f64 * (2f64).ln()) as usize, 1)`. -/
noncomputable def BloomFilter.get_hash_count (m n : ℕ) : ℕ :=
  max ⌊(m : ℝ) / (n : ℝ) * Real.log 2⌋₊ 1

/-- `BloomFilter::new`: computes the size, derives the hash count, and
allocates an all-false bit vector.  Note: the source performs no
parameter validation and cannot fail. -/
noncomputable def BloomFilter.new (item_count : ℕ) (false_positive_prob : ℝ) :
    BloomFilter α :=
  let bit_vec_size := BloomFilter.get_size item_count false_positive_prob
  { false_positive_prob := false_positive_prob
    bit_vec_size := BloomFilter.get_size item_count false_positive_prob
    hash_count := BloomFilter.get_hash_count bit_vec_size item_count
    bit_vec := List.replicate bit_vec_size false }

/-- The `bit_array_size` formula as the spec words it:
`ceil(-1 * expected_item_count * ln(false_positive_prob) / (ln(2)^2))`. -/
noncomputable def specBitArraySize (n : ℕ) (p : ℝ) : ℕ :=
  ⌈(-1 : ℝ) * (n : ℝ) * Real.log p / (Real.log 2 * Real.log 2)⌉₊

/-- The `hash_count` formula as the spec words it:
`max(1, round(bit_array_size / expected_item_count * ln(2)))`. -/
noncomputable def specHashCount (m n : ℕ) : ℕ :=
  max 1 (round ((m : ℝ) / (n : ℝ) * Real.log 2)).toNat

/-- The running maximum kept by `check_from_file`: the longest trimmed
line, folded left over the corpus starting from the empty string. -/
def longestLine (lines : List (List Char)) : List Char :=
  lines.foldl (fun acc l => if l.length > acc.length then l else acc) []

/-- The synthetic probe strings of `check_from_file`'s true-negative
phase: for `i` in `0..filter.bit_vec.len()`, the longest line with the
decimal representation of `i` appended (`st.push_str(&i.to_string())`). -/
def syntheticStrings (f : BloomFilter (List Char)) (longest : List Char) :
    List (List Char) :=
  (List.range f.bit_vec.length).map fun i => longest ++ Nat.toDigits 10 i

/-! ### Concrete states used to instantiate the theorems -/

/-- A concrete deterministic seeded hash over natural-number items. -/
def natHash (i x : ℕ) : ℕ := i + 2 * x

/-- A fresh well-formed filter state: 3 slots, 2 probes per operation. -/
noncomputable def wf0 : BloomFilter ℕ :=
  { bit_vec := [false, false, false], false_positive_prob := 0,
    bit_vec_size := 3, hash_count := 2 }

/-- `wf0` after `add natHash _ 0` (probe indices 0 and 1). -/
noncomputable def wf1 : BloomFilter ℕ :=
  { bit_vec := [true, true, false], false_positive_prob := 0,
    bit_vec_size := 3, hash_count := 2 }

/-- `wf1` after `add natHash _ 5` (probe indices 1 and 2). -/
noncomputable def wf2 : BloomFilter ℕ :=
  { bit_vec := [true, true, true], false_positive_prob := 0,
    bit_vec_size := 3, hash_count := 2 }

/-- A degenerate filter state with zero slots, as `new` produces for
invalid sizing parameters. -/
noncomputable def wfz : BloomFilter ℕ :=
  { bit_vec := [], false_positive_prob := 0,
    bit_vec_size := 0, hash_count := 1 }

/-- A concrete well-formed filter over strings, for the harness claim. -/
noncomputable def wfs : BloomFilter (List Char) :=
  { bit_vec := [false, false, false], false_positive_prob := 0,
    bit_vec_size := 3, hash_count := 2 }

/-! ### Helper lemmas about the probe loops -/

theorem probeIndex_some {sz h idx : ℕ} (hp : probeIndex sz h = some idx) :
    sz ≠ 0 ∧ idx = h % sz := by
  by_cases hsz : sz = 0
  · rw [probeIndex, if_pos hsz] at hp
    cases hp
  · rw [probeIndex, if_neg hsz] at hp
    exact ⟨hsz, (Option.some.inj hp).symm⟩

theorem setBit_some {bv bv' : List Bool} {i : ℕ} (h : setBit bv i = some bv') :
    i < bv.length ∧ bv' = bv.set i true := by
  by_cases hi : i < bv.length
  · rw [setBit, if_pos hi] at h
    exact ⟨hi, (Option.some.inj h).symm⟩
  · rw [setBit, if_neg hi] at h
    cases h

theorem set_true_id {bv : List Bool} {i : ℕ} (h : bv[i]? = some true) :
    bv.set i true = bv := by
  induction bv generalizing i with
  | nil => simp at h
  | cons b bs ih =>
    cases i with
    | zero =>
      simp only [List.getElem?_cons_zero, Option.some.injEq] at h
      simp [h]
    | succ n =>
      simp only [List.getElem?_cons_succ] at h
      simp [ih h]

theorem addProbes_cons (hash : ℕ → α → ℕ) (item : α) (sz i : ℕ)
    (is : List ℕ) (bv : List Bool) :
    addProbes hash item sz (i :: is) bv =
      match probeIndex sz (hash i item) with
      | none => none
      | some idx =>
        match setBit bv idx with
        | none => none
        | some bv2 => addProbes hash item sz is bv2 := rfl

theorem addProbes_length {hash : ℕ → α → ℕ} {item : α} {sz : ℕ}
    {is : List ℕ} {bv bv' : List Bool}
    (h : addProbes hash item sz is bv = some bv') : bv'.length = bv.length := by
  induction is generalizing bv with
  | nil =>
    rw [addProbes] at h
    rw [Option.some.inj h]
  | cons i is ih =>
    cases hpi : probeIndex sz (hash i item) with
    | none => simp [addProbes_cons, hpi] at h
    | some idx =>
      cases hsb : setBit bv idx with
      | none => simp [addProbes_cons, hpi, hsb] at h
      | some bv2 =>
        simp only [addProbes_cons, hpi, hsb] at h
        have h2 := (setBit_some hsb).2
        rw [ih h, h2, List.length_set]

theorem addProbes_mono {hash : ℕ → α → ℕ} {item : α} {sz : ℕ}
    {is : List ℕ} {bv bv' : List Bool}
    (h : addProbes hash item sz is bv = some bv')
    {j : ℕ} (hj : bv[j]? = some true) : bv'[j]? = some true := by
  induction is generalizing bv with
  | nil =>
    rw [addProbes] at h
    rw [← Option.some.inj h]
    exact hj
  | cons i is ih =>
    cases hpi : probeIndex sz (hash i item) with
    | none => simp [addProbes_cons, hpi] at h
    | some idx =>
      cases hsb : setBit bv idx with
      | none => simp [addProbes_cons, hpi, hsb] at h
      | some bv2 =>
        simp only [addProbes_cons, hpi, hsb] at h
        obtain ⟨hlt, hbv2⟩ := setBit_some hsb
        refine ih h ?_
        subst hbv2
        by_cases hij : idx = j
        · subst hij
          rw [List.getElem?_set_self hlt]
        · rw [List.getElem?_set_ne hij]
          exact hj

theorem addProbes_total (hash : ℕ → α → ℕ) (item : α) {sz : ℕ}
    (hsz : sz ≠ 0) (is : List ℕ) (bv : List Bool) (hlen : bv.length = sz) :
    ∃ bv', addProbes hash item sz is bv = some bv' := by
  induction is generalizing bv with
  | nil => exact ⟨bv, rfl⟩
  | cons i is ih =>
    have hlt : hash i item % sz < bv.length := by
      rw [hlen]; exact Nat.mod_lt _ (Nat.pos_of_ne_zero hsz)
    obtain ⟨bv', hbv'⟩ := ih (bv.set (hash i item % sz) true)
      (by rw [List.length_set, hlen])
    refine ⟨bv', ?_⟩
    simp only [addProbes_cons, probeIndex, if_neg hsz, setBit, if_pos hlt]
    exact hbv'

theorem addProbes_sets {hash : ℕ → α → ℕ} {item : α} {sz : ℕ}
    {is : List ℕ} {bv bv' : List Bool}
    (h : addProbes hash item sz is bv = some bv') :
    ∀ i ∈ is, bv'[hash i item % sz]? = some true := by
  induction is generalizing bv with
  | nil => intro i hi; cases hi
  | cons i' is ih =>
    intro i hi
    cases hpi : probeIndex sz (hash i' item) with
    | none => simp [addProbes_cons, hpi] at h
    | some idx =>
      cases hsb : setBit bv idx with
      | none => simp [addProbes_cons, hpi, hsb] at h
      | some bv2 =>
        simp only [addProbes_cons, hpi, hsb] at h
        obtain ⟨hsz0, hidx⟩ := probeIndex_some hpi
        obtain ⟨hlt, hbv2⟩ := setBit_some hsb
        rcases List.mem_cons.1 hi with hii | hii
        · subst hii
          refine addProbes_mono h ?_
          rw [hbv2, ← hidx]
          exact List.getElem?_set_self hlt
        · exact ih h i hii

theorem addProbes_id {hash : ℕ → α → ℕ} {item : α} {sz : ℕ}
    (hsz : sz ≠ 0) {is : List ℕ} {bv : List Bool}
    (hset : ∀ i ∈ is, bv[hash i item % sz]? = some true) :
    addProbes hash item sz is bv = some bv := by
  induction is with
  | nil => rfl
  | cons i is ih =>
    have hbit := hset i (List.mem_cons_self i is)
    have hlt : hash i item % sz < bv.length := by
      rcases List.getElem?_eq_some_iff.1 hbit with ⟨hh, _⟩
      exact hh
    simp only [addProbes_cons, probeIndex, if_neg hsz, setBit, if_pos hlt,
      set_true_id hbit]
    exact ih fun j hj => hset j (List.mem_cons_of_mem i hj)

theorem containsProbes_cons (hash : ℕ → α → ℕ) (item : α) (sz i : ℕ)
    (bv : List Bool) (is : List ℕ) :
    containsProbes hash item sz bv (i :: is) =
      match probeIndex sz (hash i item) with
      | none => none
      | some idx =>
        match bv[idx]? with
        | none => none
        | some b =>
          if b then containsProbes hash item sz bv is else some false := rfl

theorem containsProbes_eq {hash : ℕ → α → ℕ} {item : α} {sz : ℕ}
    {bv : List Bool} (hsz : sz ≠ 0) (hlen : bv.length = sz) (is : List ℕ) :
    containsProbes hash item sz bv is =
      some (is.all fun i => bv.getD (hash i item % sz) false) := by
  induction is with
  | nil => rfl
  | cons i is ih =>
    have hlt : hash i item % sz < bv.length := by
      rw [hlen]; exact Nat.mod_lt _ (Nat.pos_of_ne_zero hsz)
    have hgd : bv.getD (hash i item % sz) false = bv[hash i item % sz] := by
      rw [List.getD_eq_getElem?_getD, List.getElem?_eq_getElem hlt,
        Option.getD_some]
    simp only [containsProbes_cons, probeIndex, if_neg hsz,
      List.getElem?_eq_getElem hlt, List.all_cons, hgd]
    cases hb : bv[hash i item % sz] with
    | true => rw [if_pos rfl, Bool.true_and]; exact ih
    | false => rw [if_neg Bool.false_ne_true, Bool.false_and]

/-! ### Lemmas about `add`, `contains` and `addAll` -/

theorem add_some_iff {hash : ℕ → α → ℕ} {f f' : BloomFilter α} {item : α} :
    BloomFilter.add hash f item = some f' ↔
      ∃ bv', addProbes hash item f.bit_vec_size
          (List.range f.hash_count) f.bit_vec = some bv' ∧
        { f with bit_vec := bv' } = f' := by
  rw [BloomFilter.add, Option.map_eq_some']

theorem add_fields {hash : ℕ → α → ℕ} {f f' : BloomFilter α} {item : α}
    (h : BloomFilter.add hash f item = some f') :
    f'.bit_vec_size = f.bit_vec_size ∧ f'.hash_count = f.hash_count ∧
      f'.false_positive_prob = f.false_positive_prob ∧
      f'.bit_vec.length = f.bit_vec.length := by
  obtain ⟨bv', hbv, hf⟩ := add_some_iff.1 h
  rw [← hf]
  exact ⟨rfl, rfl, rfl, addProbes_length hbv⟩

theorem add_total {hash : ℕ → α → ℕ} {f : BloomFilter α} {item : α}
    (hwf : f.WF) : ∃ f', BloomFilter.add hash f item = some f' := by
  obtain ⟨bv', hbv⟩ := addProbes_total hash item
    (Nat.pos_iff_ne_zero.1 hwf.1) (List.range f.hash_count) f.bit_vec hwf.2
  exact ⟨{ f with bit_vec := bv' }, by rw [BloomFilter.add, hbv]; rfl⟩

theorem add_mono {hash : ℕ → α → ℕ} {f f' : BloomFilter α} {item : α}
    (h : BloomFilter.add hash f item = some f') {j : ℕ}
    (hj : f.bit_vec[j]? = some true) : f'.bit_vec[j]? = some true := by
  obtain ⟨bv', hbv, hf⟩ := add_some_iff.1 h
  rw [← hf]
  exact addProbes_mono hbv hj

theorem add_sets {hash : ℕ → α → ℕ} {f f' : BloomFilter α} {item : α}
    (h : BloomFilter.add hash f item = some f') :
    ∀ i < f.hash_count,
      f'.bit_vec[hash i item % f.bit_vec_size]? = some true := by
  obtain ⟨bv', hbv, hf⟩ := add_some_iff.1 h
  intro i hi
  rw [← hf]
  exact addProbes_sets hbv i (List.mem_range.2 hi)

theorem add_WF {hash : ℕ → α → ℕ} {f f' : BloomFilter α} {item : α}
    (h : BloomFilter.add hash f item = some f') (hwf : f.WF) : f'.WF := by
  obtain ⟨h1, _, _, h4⟩ := add_fields h
  exact ⟨by rw [h1]; exact hwf.1, by rw [h4, h1]; exact hwf.2⟩

theorem contains_eq {hash : ℕ → α → ℕ} {f : BloomFilter α} {item : α}
    (hwf : f.WF) :
    BloomFilter.contains hash f item =
      some ((List.range f.hash_count).all fun i =>
        f.bit_vec.getD (hash i item % f.bit_vec_size) false) :=
  containsProbes_eq (Nat.pos_iff_ne_zero.1 hwf.1) hwf.2 _

theorem addAll_nil (hash : ℕ → α → ℕ) (f : BloomFilter α) :
    BloomFilter.addAll hash f [] = some f := rfl

theorem addAll_cons (hash : ℕ → α → ℕ) (f : BloomFilter α) (x : α)
    (xs : List α) :
    BloomFilter.addAll hash f (x :: xs) =
      match BloomFilter.add hash f x with
      | none => none
      | some f2 => BloomFilter.addAll hash f2 xs := rfl

theorem addAll_fields_mono {hash : ℕ → α → ℕ} {f g : BloomFilter α}
    {xs : List α} (h : BloomFilter.addAll hash f xs = some g) :
    g.bit_vec_size = f.bit_vec_size ∧ g.hash_count = f.hash_count ∧
      g.bit_vec.length = f.bit_vec.length ∧
      ∀ j : ℕ, f.bit_vec[j]? = some true → g.bit_vec[j]? = some true := by
  induction xs generalizing f with
  | nil =>
    rw [addAll_nil] at h
    rw [← Option.some.inj h]
    exact ⟨rfl, rfl, rfl, fun j hj => hj⟩
  | cons x xs ih =>
    cases ha : BloomFilter.add hash f x with
    | none => simp [addAll_cons, ha] at h
    | some f2 =>
      simp only [addAll_cons, ha] at h
      obtain ⟨h1, h2, h3, h4⟩ := ih h
      obtain ⟨g1, g2, _, g4⟩ := add_fields ha
      exact ⟨h1.trans g1, h2.trans g2, h3.trans g4,
        fun j hj => h4 j (add_mono ha hj)⟩

/-! ### Helper lemmas for the evaluation harness -/

theorem foldl_longest_le (lines : List (List Char)) (acc : List Char) :
    acc.length ≤
      (lines.foldl (fun a l => if l.length > a.length then l else a) acc).length ∧
    ∀ l ∈ lines,
      l.length ≤
        (lines.foldl (fun a l => if l.length > a.length then l else a) acc).length := by
  induction lines generalizing acc with
  | nil => exact ⟨le_refl _, fun l hl => absurd hl (List.not_mem_nil l)⟩
  | cons x xs ih =>
    simp only [List.foldl_cons]
    obtain ⟨ih1, ih2⟩ := ih (if x.length > acc.length then x else acc)
    have h1 : acc.length ≤ (if x.length > acc.length then x else acc).length := by
      split <;> omega
    have h2 : x.length ≤ (if x.length > acc.length then x else acc).length := by
      split <;> omega
    refine ⟨le_trans h1 ih1, fun l hl => ?_⟩
    rcases List.mem_cons.1 hl with h | h
    · rw [h]; exact le_trans h2 ih1
    · exact ih2 l h

theorem longestLine_le (lines : List (List Char)) :
    ∀ l ∈ lines, l.length ≤ (longestLine lines).length :=
  (foldl_longest_le lines []).2

theorem toDigitsCore_length_mono (b fuel : ℕ) :
    ∀ (n : ℕ) (ds : List Char),
      ds.length ≤ (Nat.toDigitsCore b fuel n ds).length := by
  induction fuel with
  | zero => intro n ds; exact le_refl _
  | succ fuel ih =>
    intro n ds
    have hstep : Nat.toDigitsCore b (fuel + 1) n ds =
        if n / b = 0 then Nat.digitChar (n % b) :: ds
        else Nat.toDigitsCore b fuel (n / b) (Nat.digitChar (n % b) :: ds) := rfl
    rw [hstep]
    split
    · simp
    · exact le_trans (by simp) (ih (n / b) (Nat.digitChar (n % b) :: ds))

theorem toDigits_length_pos (n : ℕ) : 1 ≤ (Nat.toDigits 10 n).length := by
  have hstep : Nat.toDigits 10 n =
      if n / 10 = 0 then [Nat.digitChar (n % 10)]
      else Nat.toDigitsCore 10 n (n / 10) [Nat.digitChar (n % 10)] := rfl
  rw [hstep]
  split
  · simp
  · exact le_trans (by simp) (toDigitsCore_length_mono 10 n (n / 10) _)

/-! ### Claim theorems -/

/-- Claim C1: no false negatives.  For every well-formed filter (as
constructed with `bit_array_size ≥ 1`) and every item `x`, after
`add(x)` succeeds, `contains(x)` returns `true`, and it still returns
`true` after any further sequence of `add` calls. -/
theorem add_then_contains_true (hash : ℕ → α → ℕ) (f f' g : BloomFilter α)
    (x : α) (ys : List α) (hwf : f.WF)
    (hadd : BloomFilter.add hash f x = some f')
    (hrest : BloomFilter.addAll hash f' ys = some g) :
    BloomFilter.contains hash g x = some true := by
  obtain ⟨hsz1, hhc1, _, _⟩ := add_fields hadd
  obtain ⟨hsz2, hhc2, hlen2, hmono⟩ := addAll_fields_mono hrest
  have hwf' : f'.WF := add_WF hadd hwf
  have hgwf : g.WF :=
    ⟨by rw [hsz2]; exact hwf'.1, by rw [hlen2, hsz2]; exact hwf'.2⟩
  rw [contains_eq hgwf]
  refine congrArg some (List.all_eq_true.2 fun i hi => ?_)
  show g.bit_vec.getD (hash i x % g.bit_vec_size) false = true
  have hi' : i < f.hash_count := by
    rw [← hhc1, ← hhc2]; exact List.mem_range.1 hi
  have hbit : g.bit_vec[hash i x % f.bit_vec_size]? = some true :=
    hmono _ (add_sets hadd i hi')
  have hidx : hash i x % g.bit_vec_size = hash i x % f.bit_vec_size := by
    rw [hsz2, hsz1]
  rw [hidx, List.getD_eq_getElem?_getD, hbit, Option.getD_some]

/-- Claim C1 witness: on a concrete 3-slot filter, after adding item 0
and then item 5, `contains 0` is still `true`. -/
theorem add_then_contains_true_witness :
    BloomFilter.contains natHash wf2 0 = some true :=
  add_then_contains_true natHash wf0 wf1 wf2 0 [5] ⟨by decide, rfl⟩ rfl rfl

/-- Claim C2: `contains(x)` is `true` iff every probe bit
`hash(i, x) mod bit_array_size` for `i < hash_count` is set, and the
loop short-circuits: as soon as one probe finds an unset bit the result
is `false`, whatever the remaining probes are. -/
theorem contains_probe_semantics (hash : ℕ → α → ℕ) (f : BloomFilter α)
    (x : α) (hwf : f.WF) :
    (BloomFilter.contains hash f x = some true ↔
      ∀ i < f.hash_count,
        f.bit_vec.getD (hash i x % f.bit_vec_size) false = true) ∧
    ∀ (i : ℕ) (is : List ℕ),
      f.bit_vec.getD (hash i x % f.bit_vec_size) false = false →
        containsProbes hash x f.bit_vec_size f.bit_vec (i :: is) =
          some false := by
  constructor
  · rw [contains_eq hwf]
    constructor
    · intro h i hi
      exact List.all_eq_true.1 (Option.some.inj h) i (List.mem_range.2 hi)
    · intro h
      exact congrArg some
        (List.all_eq_true.2 fun i hi => h i (List.mem_range.1 hi))
  · intro i is hfalse
    have hsz : f.bit_vec_size ≠ 0 := Nat.pos_iff_ne_zero.1 hwf.1
    have hlt : hash i x % f.bit_vec_size < f.bit_vec.length := by
      rw [hwf.2]; exact Nat.mod_lt _ hwf.1
    have hbit : f.bit_vec[hash i x % f.bit_vec_size]? = some false := by
      rw [List.getElem?_eq_getElem hlt]
      refine congrArg some ?_
      rw [← hfalse, List.getD_eq_getElem?_getD,
        List.getElem?_eq_getElem hlt, Option.getD_some]
    simp only [containsProbes_cons, probeIndex, if_neg hsz, hbit]
    rw [if_neg Bool.false_ne_true]

/-- Claim C2 witness: the probe characterisation and the short-circuit
equation instantiated on a concrete filter. -/
theorem contains_probe_semantics_witness :
    (BloomFilter.contains natHash wf0 0 = some true ↔
      ∀ i < wf0.hash_count,
        wf0.bit_vec.getD (natHash i 0 % wf0.bit_vec_size) false = true) ∧
    ∀ (i : ℕ) (is : List ℕ),
      wf0.bit_vec.getD (natHash i 0 % wf0.bit_vec_size) false = false →
        containsProbes natHash 0 wf0.bit_vec_size wf0.bit_vec (i :: is) =
          some false :=
  contains_probe_semantics natHash wf0 0 ⟨by decide, rfl⟩

/-- Claim C7: along any successful sequence of `add` calls the derived
parameters `bit_vec_size` and `hash_count` are unchanged and every bit
only ever goes from `false` to `true` (`contains` takes `&self` and
mutates nothing). -/
theorem filter_bits_monotone (hash : ℕ → α → ℕ) (f g : BloomFilter α)
    (xs : List α) (h : BloomFilter.addAll hash f xs = some g) :
    g.bit_vec_size = f.bit_vec_size ∧ g.hash_count = f.hash_count ∧
      ∀ j : ℕ, f.bit_vec[j]? = some true → g.bit_vec[j]? = some true := by
  obtain ⟨h1, h2, _, h4⟩ := addAll_fields_mono h
  exact ⟨h1, h2, h4⟩

/-- Claim C7 witness: instantiated on the concrete run adding items 0
then 5 to a fresh 3-slot filter. -/
theorem filter_bits_monotone_witness :
    wf2.bit_vec_size = wf0.bit_vec_size ∧ wf2.hash_count = wf0.hash_count ∧
      ∀ j : ℕ, wf0.bit_vec[j]? = some true → wf2.bit_vec[j]? = some true :=
  filter_bits_monotone natHash wf0 wf2 [0, 5] rfl

/-- Claim C8: idempotent insertion.  Adding the same item a second time
returns exactly the state produced by the first `add`. -/
theorem add_twice_eq_add_once (hash : ℕ → α → ℕ) (f f' : BloomFilter α)
    (x : α) (hwf : f.WF) (h : BloomFilter.add hash f x = some f') :
    BloomFilter.add hash f' x = some f' := by
  obtain ⟨hsz, hhc, _, _⟩ := add_fields h
  have hsz0 : f'.bit_vec_size ≠ 0 := by
    rw [hsz]; exact Nat.pos_iff_ne_zero.1 hwf.1
  have hprobes : addProbes hash x f'.bit_vec_size (List.range f'.hash_count)
      f'.bit_vec = some f'.bit_vec := by
    refine addProbes_id hsz0 fun i hi => ?_
    rw [hsz]
    exact add_sets h i (by rw [← hhc]; exact List.mem_range.1 hi)
  rw [BloomFilter.add, hprobes]
  rfl

/-- Claim C8 witness: adding item 0 to `wf1` (which already contains 0)
leaves the state exactly `wf1`. -/
theorem add_twice_eq_add_once_witness :
    BloomFilter.add natHash wf1 0 = some wf1 :=
  add_twice_eq_add_once natHash wf0 wf1 0 ⟨by decide, rfl⟩ rfl

/-- Claim C10: for a filter with `bit_array_size ≥ 1` every probe index
is strictly below `bit_array_size`, so `add` and `contains` are total;
with `bit_array_size = 0` (and the at-least-one-probe guarantee) both
operations panic on `% 0`, modelled as `none`. -/
theorem probe_indices_in_bounds (hash : ℕ → α → ℕ) (f : BloomFilter α)
    (x : α) :
    (f.WF →
      (∀ i : ℕ, hash i x % f.bit_vec_size < f.bit_vec_size) ∧
      (∃ f', BloomFilter.add hash f x = some f') ∧
      (∃ b, BloomFilter.contains hash f x = some b)) ∧
    (f.bit_vec_size = 0 → 1 ≤ f.hash_count →
      BloomFilter.add hash f x = none ∧
        BloomFilter.contains hash f x = none) := by
  constructor
  · intro hwf
    exact ⟨fun i => Nat.mod_lt _ hwf.1, add_total hwf, _, contains_eq hwf⟩
  · intro hz hc
    have hrange : List.range f.hash_count =
        0 :: (List.range (f.hash_count - 1)).map Nat.succ := by
      have hk : f.hash_count = (f.hash_count - 1) + 1 := by omega
      conv_lhs => rw [hk]
      rw [List.range_succ_eq_map]
    constructor
    · rw [BloomFilter.add, hrange]
      simp [addProbes_cons, probeIndex, hz]
    · rw [BloomFilter.contains, hrange]
      simp [containsProbes_cons, probeIndex, hz]

/-- Claim C10 witness: both conjuncts instantiated, on a well-formed
3-slot filter and on a degenerate zero-slot filter. -/
theorem probe_indices_in_bounds_witness :
    ((∀ i : ℕ, natHash i 0 % wf0.bit_vec_size < wf0.bit_vec_size) ∧
      (∃ f', BloomFilter.add natHash wf0 0 = some f') ∧
      (∃ b, BloomFilter.contains natHash wf0 0 = some b)) ∧
    (BloomFilter.add natHash wfz 0 = none ∧
      BloomFilter.contains natHash wfz 0 = none) :=
  ⟨(probe_indices_in_bounds natHash wf0 0).1 ⟨by decide, rfl⟩,
    (probe_indices_in_bounds natHash wfz 0).2 rfl (by decide)⟩

/-- Claim C9: the true-negative phase generates exactly
`bit_array_size` synthetic strings; the `i`-th one is the longest
corpus line with the decimal suffix `i` appended; each is strictly
longer than every corpus line and hence distinct from every string
added during the population phase. -/
theorem synthetic_strings_fresh (lines : List (List Char))
    (f : BloomFilter (List Char))
    (hlen : f.bit_vec.length = f.bit_vec_size) :
    (syntheticStrings f (longestLine lines)).length = f.bit_vec_size ∧
    (∀ i < f.bit_vec_size,
      (syntheticStrings f (longestLine lines))[i]? =
        some (longestLine lines ++ Nat.toDigits 10 i)) ∧
    ∀ s ∈ syntheticStrings f (longestLine lines), ∀ l ∈ lines,
      l.length < s.length ∧ s ≠ l := by
  refine ⟨?_, ?_, ?_⟩
  · rw [syntheticStrings, List.length_map, List.length_range, hlen]
  · intro i hi
    rw [syntheticStrings, List.getElem?_map,
      List.getElem?_range (by rw [hlen]; exact hi), Option.map_some']
  · intro s hs l hl
    rw [syntheticStrings, List.mem_map] at hs
    obtain ⟨i, _, hsi⟩ := hs
    have hlt : l.length < s.length := by
      rw [← hsi, List.length_append]
      have h1 := longestLine_le lines l hl
      have h2 := toDigits_length_pos i
      omega
    refine ⟨hlt, fun heq => ?_⟩
    rw [heq] at hlt
    exact lt_irrefl _ hlt

/-- Claim C9 witness: instantiated on the corpus `["a", "bc"]` and a
concrete 3-slot filter. -/
theorem synthetic_strings_fresh_witness :
    (syntheticStrings wfs (longestLine [['a'], ['b', 'c']])).length =
      wfs.bit_vec_size ∧
    (∀ i < wfs.bit_vec_size,
      (syntheticStrings wfs (longestLine [['a'], ['b', 'c']]))[i]? =
        some (longestLine [['a'], ['b', 'c']] ++ Nat.toDigits 10 i)) ∧
    ∀ s ∈ syntheticStrings wfs (longestLine [['a'], ['b', 'c']]),
      ∀ l ∈ [['a'], ['b', 'c']], l.length < s.length ∧ s ≠ l :=
  synthetic_strings_fresh [['a'], ['b', 'c']] wfs rfl

/-- Claim C6: the hash-count computation never returns less than one
probe, for every pair of arguments it accepts. -/
theorem get_hash_count_ge_one (m n : ℕ) :
    1 ≤ BloomFilter.get_hash_count m n :=
  le_max_right _ _

/-- Claim C6 witness: at the concrete arguments `m = 5, n = 2` the
computed hash count is at least one. -/
theorem get_hash_count_ge_one_witness :
    1 ≤ BloomFilter.get_hash_count 5 2 :=
  get_hash_count_ge_one 5 2

/-- Claim C3 counterexample: `new(0, 0.1)` does not fail — it silently
returns a structure whose `bit_vec_size` is zero, contradicting the
claimed `InvalidParameter` rejection. -/
theorem new_zero_capacity_silent :
    (BloomFilter.new 0 (1 / 10) : BloomFilter ℕ).bit_vec_size = 0 := by
  show BloomFilter.get_size 0 (1 / 10) = 0
  rw [BloomFilter.get_size]
  norm_num

/-- Claim C3 amended: construction performs no validation and never
fails; `new(0, 0.1)` and `new(100, 1.0)` both return silently, with a
zero-size structure (empty bit vector). -/
theorem new_never_fails_zero_size :
    (BloomFilter.new 0 (1 / 10) : BloomFilter ℕ).bit_vec_size = 0 ∧
    (BloomFilter.new 0 (1 / 10) : BloomFilter ℕ).bit_vec = [] ∧
    (BloomFilter.new 100 1 : BloomFilter ℕ).bit_vec_size = 0 ∧
    (BloomFilter.new 100 1 : BloomFilter ℕ).bit_vec = [] := by
  have h0 : BloomFilter.get_size 0 (1 / 10) = 0 := by
    rw [BloomFilter.get_size]; norm_num
  have h1 : BloomFilter.get_size 100 1 = 0 := by
    rw [BloomFilter.get_size, Real.log_one]; norm_num
  refine ⟨h0, ?_, h1, ?_⟩
  · show List.replicate (BloomFilter.get_size 0 (1 / 10)) false = []
    rw [h0, List.replicate_zero]
  · show List.replicate (BloomFilter.get_size 100 1) false = []
    rw [h1, List.replicate_zero]

/-- Claim C4 counterexample: the size computation truncates instead of
taking the ceiling (`get_size 1 0.5` is 1 where the spec formula gives
2), and the result can be 0 (`get_size 1 0.9`), so no `≥ 1` guarantee
holds. -/
theorem get_size_truncates_below_ceil :
    BloomFilter.get_size 1 (1 / 2) = 1 ∧
    specBitArraySize 1 (1 / 2) = 2 ∧
    BloomFilter.get_size 1 (9 / 10) = 0 := by
  have hgt := Real.log_two_gt_d9
  have hlt := Real.log_two_lt_d9
  have hpos : (0 : ℝ) < Real.log 2 := by linarith
  have hne : Real.log 2 ≠ 0 := ne_of_gt hpos
  have hv : ((1 : ℕ) : ℝ) * Real.log (1 / 2) /
      (Real.log 2 * Real.log 2) * (-1) = 1 / Real.log 2 := by
    rw [one_div, Real.log_inv]
    field_simp
  have hv2 : (-1 : ℝ) * ((1 : ℕ) : ℝ) * Real.log (1 / 2) /
      (Real.log 2 * Real.log 2) = 1 / Real.log 2 := by
    rw [one_div, Real.log_inv]
    field_simp
  refine ⟨?_, ?_, ?_⟩
  · rw [BloomFilter.get_size, hv, Nat.floor_eq_iff (by positivity)]
    constructor
    · rw [Nat.cast_one, le_div_iff₀ hpos]
      linarith
    · rw [div_lt_iff₀ hpos]
      push_cast
      linarith
  · rw [specBitArraySize, hv2, Nat.ceil_eq_iff (by norm_num)]
    constructor
    · push_cast
      rw [lt_div_iff₀ hpos]
      linarith
    · rw [div_le_iff₀ hpos]
      push_cast
      linarith
  · rw [BloomFilter.get_size, Nat.floor_eq_zero]
    have hlog : Real.log (9 / 10) = -Real.log (10 / 9) := by
      rw [show (9 : ℝ) / 10 = ((10 : ℝ) / 9)⁻¹ by norm_num, Real.log_inv]
    have hub : Real.log (10 / 9) ≤ 10 / 9 - 1 :=
      Real.log_le_sub_one_of_pos (by norm_num)
    have hsq : (1 : ℝ) / 9 < Real.log 2 * Real.log 2 := by nlinarith
    have hnn : (0 : ℝ) < Real.log 2 * Real.log 2 := by positivity
    have h9 : ((1 : ℕ) : ℝ) * Real.log (9 / 10) /
        (Real.log 2 * Real.log 2) * (-1) =
        Real.log (10 / 9) / (Real.log 2 * Real.log 2) := by
      rw [hlog]
      push_cast
      ring
    rw [h9, div_lt_one hnn]
    linarith

/-- Claim C4 amended: `bit_array_size` is the floor (Rust `as usize`
truncation) of `n * ln(1/p) / ln(2)^2`, not the ceiling; it therefore
sits at or one below the spec's ceiling value, and carries no `≥ 1`
guarantee. -/
theorem get_size_floor_formula (n : ℕ) (p : ℝ) :
    BloomFilter.get_size n p =
      ⌊(n : ℝ) * Real.log p⁻¹ / (Real.log 2 * Real.log 2)⌋₊ ∧
    specBitArraySize n p ≤ BloomFilter.get_size n p + 1 := by
  constructor
  · rw [BloomFilter.get_size, Real.log_inv]
    congr 1
    ring
  · rw [BloomFilter.get_size, specBitArraySize]
    have heq : (-1 : ℝ) * (n : ℝ) * Real.log p /
        (Real.log 2 * Real.log 2) =
        (n : ℝ) * Real.log p / (Real.log 2 * Real.log 2) * (-1) := by
      ring
    rw [heq]
    exact Nat.ceil_le_floor_add_one _

/-- Claim C4 amended, witness: the floor formula and the ceiling bound
instantiated at `n = 1, p = 0.5`. -/
theorem get_size_floor_formula_witness :
    (BloomFilter.get_size 1 (1 / 2) =
      ⌊((1 : ℕ) : ℝ) * Real.log ((1 : ℝ) / 2)⁻¹ /
        (Real.log 2 * Real.log 2)⌋₊) ∧
    specBitArraySize 1 (1 / 2) ≤ BloomFilter.get_size 1 (1 / 2) + 1 :=
  get_size_floor_formula 1 (1 / 2)

/-- Floor and round of a nonnegative real differ by at most one, at the
level of the clamped natural results. -/
theorem floor_round_bounds {v : ℝ} (hv : 0 ≤ v) :
    max ⌊v⌋₊ 1 ≤ max 1 (round v).toNat ∧
      max 1 (round v).toNat ≤ max ⌊v⌋₊ 1 + 1 := by
  have h1 : (⌊v⌋ : ℤ) ≤ round v := by
    rw [round_eq]
    exact Int.floor_mono (by linarith)
  have h2 : round v ≤ ⌊v⌋ + 1 := by
    rw [round_eq]
    calc ⌊v + 1 / 2⌋ ≤ ⌊v + 1⌋ := Int.floor_mono (by linarith)
    _ = ⌊v⌋ + 1 := by exact_mod_cast Int.floor_add_int v 1
  have h0 : (0 : ℤ) ≤ ⌊v⌋ := Int.floor_nonneg.2 hv
  have htn : ⌊v⌋₊ = (⌊v⌋).toNat := (Int.floor_toNat v).symm
  omega

/-- Claim C5 counterexample: the hash-count computation truncates the
fractional probe count instead of rounding it to the nearest integer:
at `m = 5, n = 2` the code yields 1 while the spec's rounding yields 2. -/
theorem get_hash_count_truncates_not_rounds :
    BloomFilter.get_hash_count 5 2 = 1 ∧ specHashCount 5 2 = 2 := by
  have hgt := Real.log_two_gt_d9
  have hlt := Real.log_two_lt_d9
  have hv : ((5 : ℕ) : ℝ) / ((2 : ℕ) : ℝ) * Real.log 2 =
      5 / 2 * Real.log 2 := by
    push_cast
    ring
  constructor
  · rw [BloomFilter.get_hash_count, hv]
    have hfl : ⌊(5 : ℝ) / 2 * Real.log 2⌋₊ = 1 := by
      rw [Nat.floor_eq_iff (by positivity)]
      constructor
      · push_cast
        linarith
      · push_cast
        linarith
    rw [hfl]
    decide
  · rw [specHashCount, hv]
    have hr : round ((5 : ℝ) / 2 * Real.log 2) = 2 := by
      rw [round_eq, Int.floor_eq_iff]
      constructor
      · push_cast
        linarith
      · push_cast
        linarith
    rw [hr]
    decide

/-- Claim C5 amended: `hash_count` is `max(1, floor(m / n * ln 2))` —
truncation, not round-to-nearest — and hence agrees with the spec's
`max(1, round(m / n * ln 2))` up to one probe. -/
theorem get_hash_count_floor_formula (m n : ℕ) :
    BloomFilter.get_hash_count m n =
      max 1 ⌊(m : ℝ) / (n : ℝ) * Real.log 2⌋₊ ∧
    BloomFilter.get_hash_count m n ≤ specHashCount m n ∧
    specHashCount m n ≤ BloomFilter.get_hash_count m n + 1 := by
  have hv : (0 : ℝ) ≤ (m : ℝ) / (n : ℝ) * Real.log 2 :=
    mul_nonneg (div_nonneg (Nat.cast_nonneg m) (Nat.cast_nonneg n))
      (Real.log_nonneg (by norm_num))
  obtain ⟨hb1, hb2⟩ := floor_round_bounds hv
  exact ⟨by rw [BloomFilter.get_hash_count, Nat.max_comm],
    by rw [BloomFilter.get_hash_count, specHashCount]; exact hb1,
    by rw [BloomFilter.get_hash_count, specHashCount]; exact hb2⟩

/-- Claim C5 amended, witness: the floor formula and the one-probe
agreement bound instantiated at `m = 5, n = 2`. -/
theorem get_hash_count_floor_formula_witness :
    (BloomFilter.get_hash_count 5 2 =
      max 1 ⌊((5 : ℕ) : ℝ) / ((2 : ℕ) : ℝ) * Real.log 2⌋₊) ∧
    BloomFilter.get_hash_count 5 2 ≤ specHashCount 5 2 ∧
    specHashCount 5 2 ≤ BloomFilter.get_hash_count 5 2 + 1 :=
  get_hash_count_floor_formula 5 2
